import Mathlib

/-!
Verification development for HuffZip (src/main.cpp), a Huffman-coding
byte-stream codec.  The C++ source is shallowly embedded below:

* bytes (C++ `char`) are `Nat` values; the `'\0'` sentinel used to mark
  internal tree nodes is the value `0`;
* bit characters `'0'`/`'1'` are `Bool` (`false` = `'0'` = left descent,
  `true` = `'1'` = right descent);
* a `HuffmanNode*` pointer is a `NodePtr`: either `null` (nullptr) or a
  node carrying `data`, `freq` and two child pointers;
* `std::map<char,int>` keyed by bytes is an association list kept in key
  order by the insertion functions, exactly as iteration over the map
  presents it; the source iterates the map in a fixed total key order and
  uses the identical order at encode and decode time, which is all the
  algorithm relies on;
* `std::priority_queue` extraction is modelled by `popMin`, which removes
  a minimum-frequency element; the tie order among equal frequencies is
  unspecified in the C++ standard but deterministic, and the model fixes
  the first listed minimum, identically at encode and decode time;
* file I/O is out of scope: `compressFile` maps an in-memory input buffer
  to an `Artifact` (the structured content of the output file) and
  `decompressFile` maps an `Artifact` back to an output buffer.  The
  artifact's text header (a symbol count line followed by
  `<symbol> <frequency>` lines) serializes the table losslessly and is
  parsed back by a count-driven reader, so it is modelled structurally.
* the two failure exits of the source are modelled by `Option`: `none` is
  the empty-input early return of `compressFile`, and in `decodeLoop` it
  is the null-pointer dereference `current->left` reached when the bit
  walk steps to a null child.
-/

namespace HuffZip

/-- The C++ `HuffmanNode*`: a possibly null pointer to a node holding
`char data; int freq; HuffmanNode *left, *right;`. -/
inductive NodePtr : Type where
  | null : NodePtr
  | node (data : Nat) (freq : Nat) (left : NodePtr) (right : NodePtr) : NodePtr
deriving DecidableEq, Repr

/-- `n->freq`; never read on a null pointer by the source. -/
def NodePtr.freq : NodePtr → Nat
  | NodePtr.null => 0
  | NodePtr.node _ f _ _ => f

/-- One step of `freqTable[c]++` on the key-ordered association list that
models `std::map<char,int>`: insert the key with count 1 or increment the
existing entry. -/
def bumpFreq : List (Nat × Nat) → Nat → List (Nat × Nat)
  | [], c => [(c, 1)]
  | (k, v) :: rest, c =>
    if c < k then (c, 1) :: (k, v) :: rest
    else if c = k then (k, v + 1) :: rest
    else (k, v) :: bumpFreq rest c

/-- `buildFrequencyTable` (main.cpp:26): count every byte of the input. -/
def buildFrequencyTable (content : List Nat) : List (Nat × Nat) :=
  content.foldl bumpFreq []

/-- The leaf nodes pushed onto the min-heap, one per frequency-table
entry, in table order (main.cpp:39). -/
def initialLeaves (ft : List (Nat × Nat)) : List NodePtr :=
  ft.map fun p => NodePtr.node p.1 p.2 NodePtr.null NodePtr.null

/-- Extraction of a minimum-frequency node, modelling
`minHeap.top(); minHeap.pop()`: returns the first minimum together with
the remaining elements. -/
def popMin : List NodePtr → Option (NodePtr × List NodePtr)
  | [] => none
  | n :: rest =>
    match popMin rest with
    | none => some (n, [])
    | some (m, rest') =>
      if n.freq ≤ m.freq then some (n, rest) else some (m, n :: rest')

/-- The merge loop of `buildHuffmanTree` (main.cpp:44): while more than
one node remains, pop the two lowest-frequency nodes and push an internal
node with sentinel data `'\0'` and the summed frequency.  The fuel is an
upper bound on the number of iterations; each iteration shrinks the list
by one, so fuel `length` is always enough.  An empty heap corresponds to
`minHeap.top()` on an empty priority queue, which the source never
reaches from its call sites. -/
def huffLoop : Nat → List NodePtr → Option NodePtr
  | _, [] => none
  | _, [t] => some t
  | 0, _ :: _ :: _ => none
  | fuel + 1, a :: b :: rest =>
    match popMin (a :: b :: rest) with
    | none => none
    | some (x, l1) =>
      match popMin l1 with
      | none => none
      | some (y, l2) =>
        huffLoop fuel (l2 ++ [NodePtr.node 0 (x.freq + y.freq) x y])

/-- `buildHuffmanTree` (main.cpp:35). -/
def buildHuffmanTree (ft : List (Nat × Nat)) : Option NodePtr :=
  huffLoop (initialLeaves ft).length (initialLeaves ft)

/-- `generateHuffmanCodes` (main.cpp:58): depth-first traversal that
records `code` for every non-null node whose data is not the `'\0'`
sentinel, recursing with `code + "0"` on the left and `code + "1"` on the
right.  The C++ writes into a `std::map<char,string>`; the recorded
(symbol, code) pairs are collected here as an association list, which
agrees with the map because trees built by `buildHuffmanTree` record each
symbol at most once. -/
def generateHuffmanCodes : NodePtr → List Bool → List (Nat × List Bool)
  | NodePtr.null, _ => []
  | NodePtr.node d _ l r, code =>
    (if d ≠ 0 then [(d, code)] else []) ++
    generateHuffmanCodes l (code ++ [false]) ++
    generateHuffmanCodes r (code ++ [true])

/-- `huffmanCodes[c]` in the encoder loop (main.cpp:107): `operator[]`
yields the empty string when the key is absent. -/
def codeOf (codes : List (Nat × List Bool)) (c : Nat) : List Bool :=
  match codes.lookup c with
  | some s => s
  | none => []

/-- The `encoded += huffmanCodes[c]` accumulation loop (main.cpp:105). -/
def encodeBits (codes : List (Nat × List Bool)) (content : List Nat) : List Bool :=
  content.foldl (fun acc c => acc ++ codeOf codes c) []

/-- The padding step (main.cpp:111): append `8 - length % 8` zero bits
unless that amount is exactly 8. -/
def padBits (encoded : List Bool) : List Bool :=
  let padding := 8 - encoded.length % 8
  if padding ≠ 8 then encoded ++ List.replicate padding false else encoded

/-- `std::bitset<8>(s).to_ulong()` for a bit string `s` of length at most
8: the last character is the least significant bit. -/
def bitsToByte (bits : List Bool) : Nat :=
  bits.foldl (fun a b => 2 * a + (if b then 1 else 0)) 0

/-- The byte-packing loop (main.cpp:117): take 8 bits at a time,
most-significant-bit first, and emit one byte per group.  After padding
the length is a multiple of 8, so the final catch-all (a shorter last
group, which `bitset` would right-align) is never exercised. -/
def packBits : List Bool → List Nat
  | [] => []
  | b0 :: b1 :: b2 :: b3 :: b4 :: b5 :: b6 :: b7 :: rest =>
    bitsToByte [b0, b1, b2, b3, b4, b5, b6, b7] :: packBits rest
  | l => [bitsToByte l]

/-- The structured content of a compressed file: the frequency-table
header lines (symbol value and frequency, in the order the encoder's map
iteration wrote them) and the packed payload bytes. -/
structure Artifact where
  table : List (Nat × Nat)
  payload : List Nat
deriving DecidableEq, Repr

/-- `compressFile` (main.cpp:70) on an in-memory input buffer: reject an
empty input (the `content.empty()` early return — no artifact is
written), otherwise build the frequency table, the tree and the code
table, concatenate the per-byte codes, pad, pack and emit the artifact. -/
def compressFile (content : List Nat) : Option Artifact :=
  if content.isEmpty then none
  else
    match buildHuffmanTree (buildFrequencyTable content) with
    | none => none
    | some tree =>
      let codes := generateHuffmanCodes tree []
      some ⟨buildFrequencyTable content,
            packBits (padBits (encodeBits codes content))⟩

/-- `std::bitset<8>(byte).to_string()` (main.cpp:163): the eight bits of
a byte, most significant first. -/
def byteToBits (n : Nat) : List Bool :=
  [n / 128 % 2 == 1, n / 64 % 2 == 1, n / 32 % 2 == 1, n / 16 % 2 == 1,
   n / 8 % 2 == 1, n / 4 % 2 == 1, n / 2 % 2 == 1, n % 2 == 1]

/-- The `encoded += bits.to_string()` loop of the decoder (main.cpp:162). -/
def unpackBits (bytes : List Nat) : List Bool :=
  bytes.foldl (fun acc b => acc ++ byteToBits b) []

/-- `freqTable[c] = f` on the key-ordered association list, modelling the
`std::map` assignment used while reading the header (main.cpp:156). -/
def setFreq : List (Nat × Nat) → Nat → Nat → List (Nat × Nat)
  | [], c, f => [(c, f)]
  | (k, v) :: rest, c, f =>
    if c < k then (c, f) :: (k, v) :: rest
    else if c = k then (k, f) :: rest
    else (k, v) :: setFreq rest c f

/-- Reading the header lines back into a `std::map` (main.cpp:151). -/
def parseTable (entries : List (Nat × Nat)) : List (Nat × Nat) :=
  entries.foldl (fun m p => setFreq m p.1 p.2) []

/-- The `totalChars` accumulation over the parsed table (main.cpp:177). -/
def sumFreqs (ft : List (Nat × Nat)) : Nat :=
  ft.foldl (fun acc p => acc + p.2) 0

/-- The decode state machine (main.cpp:181): for each bit move the cursor
to the left (bit `'0'`) or right child; when the cursor reaches a node
with two null children emit its data, reset the cursor to the root, and
break once the decoded count reaches `total`.  The result carries the
bits remaining unread at exit ( `[]` when the loop ran off the end of the
stream).  `none` models the undefined null-pointer dereference
`current->left` that the source performs when the walk steps to a null
child — which happens exactly when the cursor node is a leaf, i.e. when
the rebuilt root itself is a leaf. -/
def decodeLoop (root : NodePtr) :
    NodePtr → List Bool → Nat → Nat → List Nat → Option (List Nat × List Bool)
  | _, [], _, _, acc => some (acc.reverse, [])
  | NodePtr.null, _ :: _, _, _, _ => none
  | NodePtr.node _ _ l r, bit :: rest, total, count, acc =>
    match (if bit then r else l) with
    | NodePtr.null => none
    | NodePtr.node d f nl nr =>
      if nl = NodePtr.null ∧ nr = NodePtr.null then
        if count + 1 = total then some ((d :: acc).reverse, rest)
        else decodeLoop root root rest total (count + 1) (d :: acc)
      else decodeLoop root (NodePtr.node d f nl nr) rest total count acc

/-- `decompressFile` (main.cpp:137) on an in-memory artifact: parse the
header back into a map, rebuild the tree, unpack the payload into a bit
string and run the decode state machine; the decoded bytes are the output
buffer.  The source prints a success message and keeps whatever output
was produced even when the loop exhausts the bits before reaching the
declared symbol count. -/
def decompressFile (a : Artifact) : Option (List Nat) :=
  match buildHuffmanTree (parseTable a.table) with
  | none => none
  | some tree =>
    match decodeLoop tree tree (unpackBits a.payload) (sumFreqs (parseTable a.table)) 0 [] with
    | none => none
    | some (out, _) => some out

/-- A pointer is a well-shaped tree when it is non-null and every node
either has two null children (a leaf) or two non-null well-shaped
children carrying the `'\0'` sentinel as data (an internal node built by
`buildHuffmanTree`). -/
def wellFormed : NodePtr → Bool
  | NodePtr.null => false
  | NodePtr.node _ _ NodePtr.null NodePtr.null => true
  | NodePtr.node d _ (NodePtr.node dl fl ll rl) (NodePtr.node dr fr lr rr) =>
      d == 0 && wellFormed (NodePtr.node dl fl ll rl)
             && wellFormed (NodePtr.node dr fr lr rr)
  | NodePtr.node _ _ NodePtr.null (NodePtr.node _ _ _ _) => false
  | NodePtr.node _ _ (NodePtr.node _ _ _ _) NodePtr.null => false

/-- A node whose two children are both non-null. -/
def isInternal : NodePtr → Bool
  | NodePtr.node _ _ (NodePtr.node _ _ _ _) (NodePtr.node _ _ _ _) => true
  | _ => false

/-- The symbols stored at the leaves of a tree, left to right. -/
def leafSyms : NodePtr → List Nat
  | NodePtr.null => []
  | NodePtr.node d _ NodePtr.null NodePtr.null => [d]
  | NodePtr.node _ _ l r => leafSyms l ++ leafSyms r

/-! ### Priority-queue and tree-construction lemmas -/

theorem popMin_cons_isSome (n : NodePtr) (rest : List NodePtr) :
    (popMin (n :: rest)).isSome := by
  simp only [popMin]
  cases h : popMin rest with
  | none => simp
  | some p =>
    obtain ⟨m, r⟩ := p
    by_cases hf : n.freq ≤ m.freq <;> simp [hf]

theorem popMin_perm (l : List NodePtr) :
    ∀ m rest, popMin l = some (m, rest) → l.Perm (m :: rest) := by
  induction l with
  | nil => intro m rest h; simp [popMin] at h
  | cons n tail ih =>
    intro m rest h
    simp only [popMin] at h
    cases htail : popMin tail with
    | none =>
      rw [htail] at h
      simp only [Option.some.injEq, Prod.mk.injEq] at h
      obtain ⟨hm, hr⟩ := h
      subst hm
      subst hr
      have htn : tail = [] := by
        cases tail with
        | nil => rfl
        | cons a b =>
          have hs := popMin_cons_isSome a b
          rw [htail] at hs
          simp at hs
      subst htn
      exact List.Perm.refl _
    | some p =>
      obtain ⟨m', rest'⟩ := p
      rw [htail] at h
      by_cases hf : n.freq ≤ m'.freq
      · simp only [hf, if_true, Option.some.injEq, Prod.mk.injEq] at h
        obtain ⟨hm, hr⟩ := h
        subst hm
        subst hr
        exact List.Perm.refl _
      · simp only [hf, if_false, Option.some.injEq, Prod.mk.injEq] at h
        obtain ⟨hm, hr⟩ := h
        subst hm
        subst hr
        exact ((ih _ _ htail).cons n).trans (List.Perm.swap m' n rest')

/-- One unfolding of the merge loop when the two extractions are known. -/
theorem huffLoop_step (fuel : Nat) (a b : NodePtr) (rest : List NodePtr)
    (x y : NodePtr) (l1 l2 : List NodePtr)
    (h1 : popMin (a :: b :: rest) = some (x, l1))
    (h2 : popMin l1 = some (y, l2)) :
    huffLoop (fuel + 1) (a :: b :: rest)
      = huffLoop fuel (l2 ++ [NodePtr.node 0 (x.freq + y.freq) x y]) := by
  simp only [huffLoop, h1, h2]

/-- Any property preserved by the merge step and holding on the initial
heap elements holds of the tree the loop returns. -/
theorem huffLoop_inv (P : NodePtr → Prop)
    (hmerge : ∀ x y, P x → P y → P (NodePtr.node 0 (x.freq + y.freq) x y)) :
    ∀ (fuel : Nat) (l : List NodePtr) (t : NodePtr),
      (∀ n ∈ l, P n) → l.length ≤ fuel + 1 → huffLoop fuel l = some t → P t := by
  intro fuel
  induction fuel with
  | zero =>
    intro l t hP hlen hrun
    match l, hrun with
    | [], hrun => simp [huffLoop] at hrun
    | [u], hrun =>
      simp only [huffLoop, Option.some.injEq] at hrun
      exact hrun ▸ hP u (by simp)
    | a :: b :: rest, hrun => simp at hlen
  | succ fuel ih =>
    intro l t hP hlen hrun
    match l with
    | [] => simp [huffLoop] at hrun
    | [u] =>
      simp only [huffLoop, Option.some.injEq] at hrun
      exact hrun ▸ hP u (by simp)
    | a :: b :: rest =>
      obtain ⟨⟨x, l1⟩, hp1⟩ := Option.isSome_iff_exists.mp (popMin_cons_isSome a (b :: rest))
      have perm1 := popMin_perm _ _ _ hp1
      have hl1 : l1.length = rest.length + 1 := by
        have := perm1.length_eq
        simp at this
        omega
      obtain ⟨c, l1tl, rfl⟩ : ∃ c tl, l1 = c :: tl := by
        cases l1 with
        | nil => simp at hl1
        | cons c tl => exact ⟨c, tl, rfl⟩
      obtain ⟨⟨y, l2⟩, hp2⟩ := Option.isSome_iff_exists.mp (popMin_cons_isSome c l1tl)
      have perm2 := popMin_perm _ _ _ hp2
      rw [huffLoop_step fuel a b rest x y _ l2 hp1 hp2] at hrun
      have hmemx : x ∈ a :: b :: rest := perm1.symm.subset (by simp)
      have hmemy : y ∈ a :: b :: rest :=
        perm1.symm.subset (List.mem_cons_of_mem _ (perm2.symm.subset (by simp)))
      refine ih (l2 ++ [NodePtr.node 0 (x.freq + y.freq) x y]) t ?_ ?_ hrun
      · intro n hn
        rcases List.mem_append.mp hn with h | h
        · exact hP n (perm1.symm.subset
            (List.mem_cons_of_mem _ (perm2.symm.subset (List.mem_cons_of_mem _ h))))
        · simp at h
          exact h ▸ hmerge x y (hP x hmemx) (hP y hmemy)
      · have := perm2.length_eq
        simp only [List.length_cons] at this hl1 hlen ⊢
        simp [List.length_append]
        omega

theorem huffLoop_isSome :
    ∀ (fuel : Nat) (l : List NodePtr), l ≠ [] → l.length ≤ fuel + 1 →
      (huffLoop fuel l).isSome := by
  intro fuel
  induction fuel with
  | zero =>
    intro l hne hlen
    match l with
    | [] => exact absurd rfl hne
    | [u] => simp [huffLoop]
    | a :: b :: rest => simp at hlen
  | succ fuel ih =>
    intro l hne hlen
    match l with
    | [] => exact absurd rfl hne
    | [u] => simp [huffLoop]
    | a :: b :: rest =>
      obtain ⟨⟨x, l1⟩, hp1⟩ := Option.isSome_iff_exists.mp (popMin_cons_isSome a (b :: rest))
      have perm1 := popMin_perm _ _ _ hp1
      have hl1 : l1.length = rest.length + 1 := by
        have := perm1.length_eq
        simp at this
        omega
      obtain ⟨c, l1tl, rfl⟩ : ∃ c tl, l1 = c :: tl := by
        cases l1 with
        | nil => simp at hl1
        | cons c tl => exact ⟨c, tl, rfl⟩
      obtain ⟨⟨y, l2⟩, hp2⟩ := Option.isSome_iff_exists.mp (popMin_cons_isSome c l1tl)
      have perm2 := popMin_perm _ _ _ hp2
      rw [huffLoop_step fuel a b rest x y _ l2 hp1 hp2]
      refine ih _ (by simp) ?_
      have := perm2.length_eq
      simp only [List.length_cons] at this hl1 hlen ⊢
      simp [List.length_append]
      omega

/-- A merge of two well-shaped trees is a well-shaped internal node. -/
theorem wellFormed_merge (x y : NodePtr) (f : Nat)
    (hx : wellFormed x = true) (hy : wellFormed y = true) :
    wellFormed (NodePtr.node 0 f x y) = true := by
  cases x with
  | null => simp [wellFormed] at hx
  | node dx fx lx rx =>
    cases y with
    | null => simp [wellFormed] at hy
    | node dy fy ly ry => simp [wellFormed, hx, hy]

theorem isInternal_merge (x y : NodePtr) (d f : Nat)
    (hx : wellFormed x = true) (hy : wellFormed y = true) :
    isInternal (NodePtr.node d f x y) = true := by
  cases x with
  | null => simp [wellFormed] at hx
  | node dx fx lx rx =>
    cases y with
    | null => simp [wellFormed] at hy
    | node dy fy ly ry => simp [isInternal]

theorem initialLeaves_wf (ft : List (Nat × Nat)) :
    ∀ n ∈ initialLeaves ft, wellFormed n = true := by
  intro n hn
  simp only [initialLeaves, List.mem_map] at hn
  obtain ⟨p, _, rfl⟩ := hn
  rfl

theorem buildHuffmanTree_wf (ft : List (Nat × Nat)) (t : NodePtr)
    (hb : buildHuffmanTree ft = some t) : wellFormed t = true := by
  refine huffLoop_inv (fun n => wellFormed n = true)
    (fun x y hx hy => wellFormed_merge x y _ hx hy)
    (initialLeaves ft).length (initialLeaves ft) t (initialLeaves_wf ft) (by omega) hb

theorem buildHuffmanTree_isSome (ft : List (Nat × Nat)) (h : ft ≠ []) :
    (buildHuffmanTree ft).isSome := by
  refine huffLoop_isSome _ _ ?_ (by omega)
  simp [initialLeaves]
  exact h

theorem huffLoop_singleton (fuel : Nat) (u : NodePtr) :
    huffLoop fuel [u] = some u := by
  cases fuel <;> rfl

theorem huffLoop_internal :
    ∀ (fuel : Nat) (l : List NodePtr) (t : NodePtr),
      2 ≤ l.length → (∀ n ∈ l, wellFormed n = true) → l.length ≤ fuel + 1 →
      huffLoop fuel l = some t → isInternal t = true := by
  intro fuel
  induction fuel with
  | zero =>
    intro l t h2 hP hlen hrun
    omega
  | succ fuel ih =>
    intro l t h2 hP hlen hrun
    match l, h2 with
    | a :: b :: rest, _ =>
      obtain ⟨⟨x, l1⟩, hp1⟩ := Option.isSome_iff_exists.mp (popMin_cons_isSome a (b :: rest))
      have perm1 := popMin_perm _ _ _ hp1
      have hl1 : l1.length = rest.length + 1 := by
        have := perm1.length_eq
        simp at this
        omega
      obtain ⟨c, l1tl, rfl⟩ : ∃ c tl, l1 = c :: tl := by
        cases l1 with
        | nil => simp at hl1
        | cons c tl => exact ⟨c, tl, rfl⟩
      obtain ⟨⟨y, l2⟩, hp2⟩ := Option.isSome_iff_exists.mp (popMin_cons_isSome c l1tl)
      have perm2 := popMin_perm _ _ _ hp2
      rw [huffLoop_step fuel a b rest x y _ l2 hp1 hp2] at hrun
      have hmemx : x ∈ a :: b :: rest := perm1.symm.subset (by simp)
      have hmemy : y ∈ a :: b :: rest :=
        perm1.symm.subset (List.mem_cons_of_mem _ (perm2.symm.subset (by simp)))
      have hwx := hP x hmemx
      have hwy := hP y hmemy
      cases l2 with
      | nil =>
        rw [List.nil_append, huffLoop_singleton] at hrun
        simp only [Option.some.injEq] at hrun
        exact hrun ▸ isInternal_merge x y 0 _ hwx hwy
      | cons e l2tl =>
        refine ih (e :: l2tl ++ [NodePtr.node 0 (x.freq + y.freq) x y]) t (by simp) ?_ ?_ hrun
        · intro n hn
          rcases List.mem_append.mp hn with h | h
          · exact hP n (perm1.symm.subset
              (List.mem_cons_of_mem _ (perm2.symm.subset (List.mem_cons_of_mem _ h))))
          · simp at h
            exact h ▸ wellFormed_merge x y _ hwx hwy
        · have := perm2.length_eq
          simp only [List.length_cons] at this hl1 hlen ⊢
          simp [List.length_append]
          omega

/-- A non-null pointer is either a leaf (two null children) or, when
well-formed, an internal node with well-shaped children and sentinel
data. -/
theorem wellFormed_node (d f : Nat) (l r : NodePtr)
    (h : wellFormed (NodePtr.node d f l r) = true) :
    (l = NodePtr.null ∧ r = NodePtr.null) ∨
    (wellFormed l = true ∧ wellFormed r = true
      ∧ isInternal (NodePtr.node d f l r) = true ∧ d = 0) := by
  cases l <;> cases r <;> simp_all [wellFormed, isInternal]

theorem leafSyms_merge (d f : Nat) (x y : NodePtr) (hx : x ≠ NodePtr.null) :
    leafSyms (NodePtr.node d f x y) = leafSyms x ++ leafSyms y := by
  cases x with
  | null => exact absurd rfl hx
  | node dx fx lx rx =>
    cases y with
    | null => simp [leafSyms]
    | node dy fy ly ry => simp [leafSyms]

theorem wellFormed_ne_null (t : NodePtr) (h : wellFormed t = true) :
    t ≠ NodePtr.null := by
  cases t with
  | null => simp [wellFormed] at h
  | node d f l r => simp

theorem huffLoop_leafMem :
    ∀ (fuel : Nat) (l : List NodePtr) (t : NodePtr) (s : Nat),
      (∀ n ∈ l, wellFormed n = true) → l.length ≤ fuel + 1 →
      huffLoop fuel l = some t →
      (∃ n, n ∈ l ∧ s ∈ leafSyms n) → s ∈ leafSyms t := by
  intro fuel
  induction fuel with
  | zero =>
    intro l t s hP hlen hrun hex
    match l, hrun with
    | [], hrun => simp [huffLoop] at hrun
    | [u], hrun =>
      simp only [huffLoop, Option.some.injEq] at hrun
      obtain ⟨n, hn, hs⟩ := hex
      simp at hn
      exact hrun ▸ hn ▸ hs
    | a :: b :: rest, hrun => simp at hlen
  | succ fuel ih =>
    intro l t s hP hlen hrun hex
    match l with
    | [] => simp [huffLoop] at hrun
    | [u] =>
      simp only [huffLoop, Option.some.injEq] at hrun
      obtain ⟨n, hn, hs⟩ := hex
      simp at hn
      exact hrun ▸ hn ▸ hs
    | a :: b :: rest =>
      obtain ⟨⟨x, l1⟩, hp1⟩ := Option.isSome_iff_exists.mp (popMin_cons_isSome a (b :: rest))
      have perm1 := popMin_perm _ _ _ hp1
      have hl1 : l1.length = rest.length + 1 := by
        have := perm1.length_eq
        simp at this
        omega
      obtain ⟨c, l1tl, rfl⟩ : ∃ c tl, l1 = c :: tl := by
        cases l1 with
        | nil => simp at hl1
        | cons c tl => exact ⟨c, tl, rfl⟩
      obtain ⟨⟨y, l2⟩, hp2⟩ := Option.isSome_iff_exists.mp (popMin_cons_isSome c l1tl)
      have perm2 := popMin_perm _ _ _ hp2
      rw [huffLoop_step fuel a b rest x y _ l2 hp1 hp2] at hrun
      have hmemx : x ∈ a :: b :: rest := perm1.symm.subset (by simp)
      have hmemy : y ∈ a :: b :: rest :=
        perm1.symm.subset (List.mem_cons_of_mem _ (perm2.symm.subset (by simp)))
      have hwx := hP x hmemx
      have hwy := hP y hmemy
      have hmergeSyms :
          leafSyms (NodePtr.node 0 (x.freq + y.freq) x y) = leafSyms x ++ leafSyms y :=
        leafSyms_merge _ _ x y (wellFormed_ne_null x hwx)
      refine ih (l2 ++ [NodePtr.node 0 (x.freq + y.freq) x y]) t s ?_ ?_ hrun ?_
      · intro n hn
        rcases List.mem_append.mp hn with h | h
        · exact hP n (perm1.symm.subset
            (List.mem_cons_of_mem _ (perm2.symm.subset (List.mem_cons_of_mem _ h))))
        · simp at h
          exact h ▸ wellFormed_merge x y _ hwx hwy
      · have := perm2.length_eq
        simp only [List.length_cons] at this hl1 hlen ⊢
        simp [List.length_append]
        omega
      · obtain ⟨n, hn, hs⟩ := hex
        have hn1 : n = x ∨ n ∈ c :: l1tl := by
          have := perm1.subset hn
          simpa using this
        rcases hn1 with rfl | hn1
        · exact ⟨NodePtr.node 0 (n.freq + y.freq) n y, by simp,
            by rw [hmergeSyms]; exact List.mem_append_left _ hs⟩
        · have hn2 : n = y ∨ n ∈ l2 := by
            have := perm2.subset hn1
            simpa using this
          rcases hn2 with rfl | hn2
          · exact ⟨NodePtr.node 0 (x.freq + n.freq) x n, by simp,
              by rw [hmergeSyms]; exact List.mem_append_right _ hs⟩
          · exact ⟨n, List.mem_append_left _ hn2, hs⟩

theorem buildHuffmanTree_internal (ft : List (Nat × Nat)) (t : NodePtr)
    (h2 : 2 ≤ ft.length) (hb : buildHuffmanTree ft = some t) :
    isInternal t = true := by
  refine huffLoop_internal _ _ _ ?_ (initialLeaves_wf ft) (by omega) hb
  simpa [initialLeaves] using h2

theorem buildHuffmanTree_leafMem (ft : List (Nat × Nat)) (t : NodePtr) (s : Nat)
    (hb : buildHuffmanTree ft = some t) (hs : s ∈ ft.map Prod.fst) :
    s ∈ leafSyms t := by
  refine huffLoop_leafMem _ _ _ _ (initialLeaves_wf ft) (by omega) hb ?_
  simp only [List.mem_map] at hs
  obtain ⟨p, hp, rfl⟩ := hs
  refine ⟨NodePtr.node p.1 p.2 NodePtr.null NodePtr.null, ?_, by simp [leafSyms]⟩
  simp only [initialLeaves, List.mem_map]
  exact ⟨p, hp, rfl⟩

/-! ### Decoder safety (towards C9) -/

theorem decode_no_crash (root : NodePtr)
    (hwf : wellFormed root = true) (hint : isInternal root = true) :
    ∀ (bits : List Bool) (cur : NodePtr) (total count : Nat) (acc : List Nat),
      wellFormed cur = true → isInternal cur = true →
      decodeLoop root cur bits total count acc ≠ none := by
  intro bits
  induction bits with
  | nil =>
    intro cur total count acc hc hi
    cases cur with
    | null => simp [isInternal] at hi
    | node d f l r => simp [decodeLoop]
  | cons bit rest ih =>
    intro cur total count acc hc hi
    cases cur with
    | null => simp [isInternal] at hi
    | node d f l r =>
      cases l with
      | null => simp [isInternal] at hi
      | node dl fl ll rl =>
        cases r with
        | null => simp [isInternal] at hi
        | node dr fr lr rr =>
          have hch := wellFormed_node d f _ _ hc
          simp only [reduceCtorEq, false_and, and_false, false_or] at hch
          obtain ⟨hwl, hwr, -, -⟩ := hch
          simp only [decodeLoop]
          cases bit
          · simp only [Bool.false_eq_true, if_false]
            rcases wellFormed_node dl fl ll rl hwl with ⟨rfl, rfl⟩ | ⟨-, -, hil, -⟩
            · split
              · split
                · simp
                · exact ih root total (count + 1) _ hwf hint
              · simp_all
            · split
              · simp_all [isInternal]
              · exact ih _ total count acc hwl hil
          · simp only [if_true]
            rcases wellFormed_node dr fr lr rr hwr with ⟨rfl, rfl⟩ | ⟨-, -, hir, -⟩
            · split
              · split
                · simp
                · exact ih root total (count + 1) _ hwf hint
              · simp_all
            · split
              · simp_all [isInternal]
              · exact ih _ total count acc hwr hir

/-! ### Frequency-table lemmas (towards C4 and C7) -/

theorem keys_bumpFreq (m : List (Nat × Nat)) (c x : Nat) :
    x ∈ (bumpFreq m c).map Prod.fst ↔ x = c ∨ x ∈ m.map Prod.fst := by
  induction m with
  | nil => simp [bumpFreq]
  | cons q rest ih =>
    obtain ⟨k, v⟩ := q
    by_cases h1 : c < k
    · simp [bumpFreq, h1]
    · by_cases h2 : c = k
      · subst h2
        simp [bumpFreq, h1]
      · simp [bumpFreq, h1, h2, ih]
        tauto

theorem pos_bumpFreq (m : List (Nat × Nat)) (c : Nat)
    (h : ∀ p ∈ m, 0 < p.2) : ∀ p ∈ bumpFreq m c, 0 < p.2 := by
  induction m with
  | nil =>
    intro p hp
    simp [bumpFreq] at hp
    simp [hp]
  | cons q rest ih =>
    obtain ⟨k, v⟩ := q
    intro p hp
    by_cases h1 : c < k
    · simp [bumpFreq, h1] at hp
      rcases hp with h' | h' | h'
      · simp [h']
      · exact h' ▸ h (k, v) (by simp)
      · exact h p (by simp [h'])
    · by_cases h2 : c = k
      · subst h2
        simp [bumpFreq, h1] at hp
        rcases hp with h' | h'
        · simp [h']
        · exact h p (by simp [h'])
      · simp [bumpFreq, h1, h2] at hp
        rcases hp with h' | h'
        · exact h' ▸ h (k, v) (by simp)
        · exact ih (fun q hq => h q (by simp [hq])) p h'

theorem sum_bumpFreq (m : List (Nat × Nat)) (c : Nat) :
    ((bumpFreq m c).map Prod.snd).sum = (m.map Prod.snd).sum + 1 := by
  induction m with
  | nil => simp [bumpFreq]
  | cons q rest ih =>
    obtain ⟨k, v⟩ := q
    by_cases h1 : c < k
    · simp [bumpFreq, h1]
      omega
    · by_cases h2 : c = k
      · subst h2
        simp [bumpFreq, h1]
        omega
      · simp [bumpFreq, h1, h2, ih]
        omega

theorem keys_foldl_bumpFreq (content : List Nat) :
    ∀ (m : List (Nat × Nat)) (x : Nat),
      x ∈ (content.foldl bumpFreq m).map Prod.fst ↔
        x ∈ m.map Prod.fst ∨ x ∈ content := by
  induction content with
  | nil => simp
  | cons a as ih =>
    intro m x
    rw [List.foldl_cons, ih, keys_bumpFreq]
    simp [List.mem_cons]
    tauto

theorem pos_foldl_bumpFreq (content : List Nat) :
    ∀ (m : List (Nat × Nat)), (∀ p ∈ m, 0 < p.2) →
      ∀ p ∈ content.foldl bumpFreq m, 0 < p.2 := by
  induction content with
  | nil => exact fun m h => h
  | cons a as ih =>
    intro m hm
    rw [List.foldl_cons]
    exact ih _ (pos_bumpFreq m a hm)

theorem sum_foldl_bumpFreq (content : List Nat) :
    ∀ (m : List (Nat × Nat)),
      ((content.foldl bumpFreq m).map Prod.snd).sum =
        (m.map Prod.snd).sum + content.length := by
  induction content with
  | nil => simp
  | cons a as ih =>
    intro m
    rw [List.foldl_cons, ih, sum_bumpFreq]
    simp
    omega

/-- C4.  FrequencyAnalyzer postcondition: `buildFrequencyTable` has a key
exactly for each byte value that occurs in the buffer, every recorded
count is positive, and the counts sum to the buffer length. -/
theorem freq_table_spec (content : List Nat) :
    (∀ c, c ∈ (buildFrequencyTable content).map Prod.fst ↔ c ∈ content)
    ∧ (∀ p ∈ buildFrequencyTable content, 0 < p.2)
    ∧ ((buildFrequencyTable content).map Prod.snd).sum = content.length := by
  refine ⟨fun c => ?_, ?_, ?_⟩
  · rw [buildFrequencyTable, keys_foldl_bumpFreq]
    simp
  · exact pos_foldl_bumpFreq content [] (by simp)
  · rw [buildFrequencyTable, sum_foldl_bumpFreq]
    simp

theorem freq_table_spec_witness :
    ((65 : Nat) ∈ (buildFrequencyTable [65, 66, 65]).map Prod.fst ↔ 65 ∈ [65, 66, 65])
    ∧ ((buildFrequencyTable [65, 66, 65]).map Prod.snd).sum
        = ([65, 66, 65] : List Nat).length :=
  ⟨(freq_table_spec [65, 66, 65]).1 65, (freq_table_spec [65, 66, 65]).2.2⟩

/-- Sample tree: what `buildHuffmanTree` returns on `[(1, 1), (2, 1)]`. -/
def sampleTree2 : NodePtr :=
  NodePtr.node 0 2 (NodePtr.node 1 1 NodePtr.null NodePtr.null)
    (NodePtr.node 2 1 NodePtr.null NodePtr.null)

/-- Sample tree with a 0x00 leaf: what `buildHuffmanTree` returns on
`[(0, 1), (1, 1)]`. -/
def sampleTreeZero : NodePtr :=
  NodePtr.node 0 2 (NodePtr.node 0 1 NodePtr.null NodePtr.null)
    (NodePtr.node 1 1 NodePtr.null NodePtr.null)

/-- C7.  The empty buffer is rejected up front — the source returns after
printing an error, before any tree is built or any output file is opened
— while every non-empty buffer does produce an artifact, so the `none`
result is exactly the empty-input error signal. -/
theorem empty_input_rejected :
    compressFile [] = none
    ∧ ∀ content : List Nat, content ≠ [] → compressFile content ≠ none := by
  refine ⟨rfl, ?_⟩
  intro content hne
  obtain ⟨c, cs, rfl⟩ := List.exists_cons_of_ne_nil hne
  have htab : buildFrequencyTable (c :: cs) ≠ [] := by
    have hmem : c ∈ (buildFrequencyTable (c :: cs)).map Prod.fst :=
      ((freq_table_spec (c :: cs)).1 c).mpr (by simp)
    intro h
    rw [h] at hmem
    simp at hmem
  obtain ⟨t, ht⟩ := Option.isSome_iff_exists.mp (buildHuffmanTree_isSome _ htab)
  simp [compressFile, ht]

theorem empty_input_rejected_witness :
    compressFile [] = none ∧ compressFile [65] ≠ none :=
  ⟨empty_input_rejected.1, empty_input_rejected.2 [65] (by decide)⟩

/-- C9.  For a frequency table with at least two entries the built tree
is well-shaped (every node has two null or two non-null children) with an
internal root, and the decoder's bit walk can never dereference a null
child: `decodeLoop` never returns the crash marker. -/
theorem decoder_null_safe (ft : List (Nat × Nat)) (t : NodePtr)
    (h2 : 2 ≤ ft.length) (hb : buildHuffmanTree ft = some t) :
    wellFormed t = true ∧ isInternal t = true ∧
    ∀ (bits : List Bool) (total : Nat), decodeLoop t t bits total 0 [] ≠ none := by
  have hwf := buildHuffmanTree_wf ft t hb
  have hint := buildHuffmanTree_internal ft t h2 hb
  exact ⟨hwf, hint,
    fun bits total => decode_no_crash t hwf hint bits t total 0 [] hwf hint⟩

theorem decoder_null_safe_witness :
    wellFormed sampleTree2 = true ∧ isInternal sampleTree2 = true ∧
    decodeLoop sampleTree2 sampleTree2 [true, false] 2 0 [] ≠ none := by
  have h := decoder_null_safe [(1, 1), (2, 1)] sampleTree2 (by decide) (by decide)
  exact ⟨h.1, h.2.1, h.2.2 [true, false] 2⟩

/-! ### Code-table lemmas (towards C3 and C10) -/

theorem gen_keys_ne_zero (t : NodePtr) :
    ∀ (code : List Bool) (p : Nat × List Bool),
      p ∈ generateHuffmanCodes t code → p.1 ≠ 0 := by
  induction t with
  | null => intro code p hp; simp [generateHuffmanCodes] at hp
  | node d f l r ihl ihr =>
    intro code p hp
    simp only [generateHuffmanCodes, List.mem_append] at hp
    rcases hp with (hp | hp) | hp
    · by_cases hd : d ≠ 0
      · rw [if_pos hd] at hp
        simp only [List.mem_singleton] at hp
        rw [hp]
        exact hd
      · rw [if_neg hd] at hp
        exact absurd hp (List.not_mem_nil p)
    · exact ihl _ _ hp
    · exact ihr _ _ hp

theorem lookup_eq_none_of_keys_ne (l : List (Nat × List Bool)) (k : Nat)
    (h : ∀ p ∈ l, p.1 ≠ k) : l.lookup k = none := by
  induction l with
  | nil => rfl
  | cons p rest ih =>
    obtain ⟨a, b⟩ := p
    have ha : a ≠ k := h (a, b) (by simp)
    have hk : (k == a) = false := by
      simp only [beq_eq_false_iff_ne, ne_eq]
      exact fun h' => ha h'.symm
    simp only [List.lookup, hk]
    exact ih fun q hq => h q (by simp [hq])

/-- C10.  An input that contains the byte 0x00 together with at least one
other distinct symbol builds a tree that does hold a leaf for 0x00, yet
the code table records no entry for it (the `'\0'` sentinel test filters
the leaf out), so `huffmanCodes[0]` in the encoder loop falls back to the
default empty string and each occurrence of 0x00 contributes no bits. -/
theorem sentinel_zero_symbol_dropped (content : List Nat) (t : NodePtr)
    (h0 : 0 ∈ content)
    (_h2 : 2 ≤ (buildFrequencyTable content).length)
    (hb : buildHuffmanTree (buildFrequencyTable content) = some t) :
    0 ∈ leafSyms t
    ∧ (generateHuffmanCodes t []).lookup 0 = none
    ∧ codeOf (generateHuffmanCodes t []) 0 = [] := by
  have hkey : (0 : Nat) ∈ (buildFrequencyTable content).map Prod.fst :=
    ((freq_table_spec content).1 0).mpr h0
  have hleaf := buildHuffmanTree_leafMem _ t 0 hb hkey
  have hlk : (generateHuffmanCodes t []).lookup 0 = none :=
    lookup_eq_none_of_keys_ne _ 0 fun p hp => gen_keys_ne_zero t [] p hp
  exact ⟨hleaf, hlk, by simp [codeOf, hlk]⟩

theorem sentinel_zero_symbol_dropped_witness :
    0 ∈ leafSyms sampleTreeZero
    ∧ (generateHuffmanCodes sampleTreeZero []).lookup 0 = none
    ∧ codeOf (generateHuffmanCodes sampleTreeZero []) 0 = [] :=
  sentinel_zero_symbol_dropped [0, 1] sampleTreeZero (by decide) (by decide) (by decide)

theorem gen_code_extends (t : NodePtr) :
    ∀ (code : List Bool) (p : Nat × List Bool),
      p ∈ generateHuffmanCodes t code → List.IsPrefix code p.2 := by
  induction t with
  | null => intro code p hp; simp [generateHuffmanCodes] at hp
  | node d f l r ihl ihr =>
    intro code p hp
    simp only [generateHuffmanCodes, List.mem_append] at hp
    rcases hp with (hp | hp) | hp
    · by_cases hd : d ≠ 0
      · rw [if_pos hd] at hp
        simp only [List.mem_singleton] at hp
        rw [hp]
      · rw [if_neg hd] at hp
        exact absurd hp (List.not_mem_nil p)
    · exact (code.prefix_append [false]).trans (ihl _ _ hp)
    · exact (code.prefix_append [true]).trans (ihr _ _ hp)

/-- Codes descending through different children of one node extend the
shared path by different bits, so neither can extend to the other. -/
theorem branch_codes_not_pre (u : List Bool) (a b : Bool) (x y : List Bool)
    (hab : a ≠ b)
    (hx : List.IsPrefix (u ++ [a]) x) (hy : List.IsPrefix (u ++ [b]) y) :
    ¬ List.IsPrefix x y := by
  intro hxy
  obtain ⟨s, hs⟩ := hx.trans hxy
  obtain ⟨w, hw⟩ := hy
  have h := hs.trans hw.symm
  rw [List.append_assoc, List.append_assoc] at h
  have h2 := List.append_cancel_left h
  simp only [List.singleton_append, List.cons.injEq] at h2
  exact hab h2.1

theorem gen_pairwise : ∀ (t : NodePtr), wellFormed t = true →
    ∀ code : List Bool,
      (generateHuffmanCodes t code).Pairwise
        (fun p q => ¬ List.IsPrefix p.2 q.2 ∧ ¬ List.IsPrefix q.2 p.2) := by
  intro t
  induction t with
  | null => intro hwf code; simp [wellFormed] at hwf
  | node d f l r ihl ihr =>
    intro hwf code
    rcases wellFormed_node d f l r hwf with ⟨rfl, rfl⟩ | ⟨hwl, hwr, -, hd0⟩
    · simp only [generateHuffmanCodes, List.append_nil]
      by_cases hd : d ≠ 0
      · rw [if_pos hd]
        simp
      · rw [if_neg hd]
        simp
    · subst hd0
      simp only [generateHuffmanCodes, ne_eq, not_true_eq_false, if_false,
        List.nil_append]
      rw [List.pairwise_append]
      refine ⟨ihl hwl _, ihr hwr _, ?_⟩
      intro p hp q hq
      have h1 := gen_code_extends l _ p hp
      have h2 := gen_code_extends r _ q hq
      exact ⟨branch_codes_not_pre code false true _ _ (by simp) h1 h2,
             branch_codes_not_pre code true false _ _ (by simp) h2 h1⟩

/-- C3.  Prefix-free property: for a frequency table with at least two
distinct symbols, no recorded code is a prefix of another recorded code
of the table produced by `generateHuffmanCodes` on the built tree. -/
theorem codes_prefix_free (ft : List (Nat × Nat)) (t : NodePtr)
    (_h2 : 2 ≤ ft.length)
    (_hdist : (ft.map Prod.fst).Pairwise (fun a b => a ≠ b))
    (hb : buildHuffmanTree ft = some t) :
    ∀ p q : Nat × List Bool,
      p ∈ generateHuffmanCodes t [] → q ∈ generateHuffmanCodes t [] →
      p ≠ q → ¬ List.IsPrefix p.2 q.2 := by
  intro p q hp hq hne
  have hwf := buildHuffmanTree_wf ft t hb
  have hpw := gen_pairwise t hwf []
  have hsym : Symmetric (fun p q : Nat × List Bool =>
      ¬ List.IsPrefix p.2 q.2 ∧ ¬ List.IsPrefix q.2 p.2) :=
    fun a b h => ⟨h.2, h.1⟩
  exact (hpw.forall hsym hp hq hne).1

theorem codes_prefix_free_witness :
    ¬ List.IsPrefix ((1, [false]) : Nat × List Bool).2 ((2, [true]) : Nat × List Bool).2 :=
  codes_prefix_free [(1, 1), (2, 1)] sampleTree2 (by decide) (by decide) (by decide)
    (1, [false]) (2, [true]) (by decide) (by decide) (by decide)

/-! ### Bit-packing lemmas (towards C5 and C6) -/

theorem encodeBits_go (codes : List (Nat × List Bool)) :
    ∀ (content : List Nat) (acc : List Bool),
      content.foldl (fun a c => a ++ codeOf codes c) acc
        = acc ++ encodeBits codes content := by
  intro content
  induction content with
  | nil => intro acc; simp [encodeBits]
  | cons c cs ih =>
    intro acc
    simp only [encodeBits, List.foldl_cons, List.nil_append] at ih ⊢
    rw [ih, ih (codeOf codes c), List.append_assoc]

theorem encodeBits_cons (codes : List (Nat × List Bool)) (c : Nat) (cs : List Nat) :
    encodeBits codes (c :: cs) = codeOf codes c ++ encodeBits codes cs := by
  simp only [encodeBits, List.foldl_cons, List.nil_append]
  exact encodeBits_go codes cs (codeOf codes c)

theorem encodeBits_length (codes : List (Nat × List Bool)) (content : List Nat) :
    (encodeBits codes content).length
      = (content.map fun c => (codeOf codes c).length).sum := by
  induction content with
  | nil => rfl
  | cons c cs ih => simp [encodeBits_cons, ih]

theorem unpackBits_go :
    ∀ (bytes : List Nat) (acc : List Bool),
      bytes.foldl (fun a b => a ++ byteToBits b) acc = acc ++ unpackBits bytes := by
  intro bytes
  induction bytes with
  | nil => intro acc; simp [unpackBits]
  | cons b bs ih =>
    intro acc
    simp only [unpackBits, List.foldl_cons, List.nil_append] at ih ⊢
    rw [ih, ih (byteToBits b), List.append_assoc]

theorem unpackBits_cons (b : Nat) (bs : List Nat) :
    unpackBits (b :: bs) = byteToBits b ++ unpackBits bs := by
  simp only [unpackBits, List.foldl_cons, List.nil_append]
  exact unpackBits_go bs (byteToBits b)

/-- Extracting the eight bits of a packed byte recovers the packed
group: packing is most-significant-bit first. -/
theorem byteToBits_bitsToByte :
    ∀ b0 b1 b2 b3 b4 b5 b6 b7 : Bool,
      byteToBits (bitsToByte [b0, b1, b2, b3, b4, b5, b6, b7])
        = [b0, b1, b2, b3, b4, b5, b6, b7] := by decide

theorem packBits_length :
    ∀ (l : List Bool), l.length % 8 = 0 → (packBits l).length * 8 = l.length
  | [], _ => by simp [packBits]
  | [_], h => by simp at h
  | [_, _], h => by simp at h
  | [_, _, _], h => by simp at h
  | [_, _, _, _], h => by simp at h
  | [_, _, _, _, _], h => by simp at h
  | [_, _, _, _, _, _], h => by simp at h
  | [_, _, _, _, _, _, _], h => by simp at h
  | b0 :: b1 :: b2 :: b3 :: b4 :: b5 :: b6 :: b7 :: rest, h => by
    have hr : rest.length % 8 = 0 := by
      simp only [List.length_cons] at h
      omega
    have := packBits_length rest hr
    simp only [packBits, List.length_cons]
    omega

theorem unpackBits_packBits :
    ∀ (l : List Bool), l.length % 8 = 0 → unpackBits (packBits l) = l
  | [], _ => rfl
  | [_], h => by simp at h
  | [_, _], h => by simp at h
  | [_, _, _], h => by simp at h
  | [_, _, _, _], h => by simp at h
  | [_, _, _, _, _], h => by simp at h
  | [_, _, _, _, _, _], h => by simp at h
  | [_, _, _, _, _, _, _], h => by simp at h
  | b0 :: b1 :: b2 :: b3 :: b4 :: b5 :: b6 :: b7 :: rest, h => by
    have hr : rest.length % 8 = 0 := by
      simp only [List.length_cons] at h
      omega
    calc unpackBits (packBits (b0 :: b1 :: b2 :: b3 :: b4 :: b5 :: b6 :: b7 :: rest))
        = byteToBits (bitsToByte [b0, b1, b2, b3, b4, b5, b6, b7])
            ++ unpackBits (packBits rest) := by
          rw [show packBits (b0 :: b1 :: b2 :: b3 :: b4 :: b5 :: b6 :: b7 :: rest)
                = bitsToByte [b0, b1, b2, b3, b4, b5, b6, b7] :: packBits rest from rfl,
              unpackBits_cons]
      _ = b0 :: b1 :: b2 :: b3 :: b4 :: b5 :: b6 :: b7 :: rest := by
          rw [byteToBits_bitsToByte, unpackBits_packBits rest hr]
          rfl

theorem padBits_eq (encoded : List Bool) :
    padBits encoded
      = encoded ++ List.replicate ((8 - encoded.length % 8) % 8) false := by
  by_cases h : encoded.length % 8 = 0
  · have h8 : 8 - encoded.length % 8 = 8 := by omega
    have h0 : (8 - encoded.length % 8) % 8 = 0 := by omega
    simp [padBits, h8, h0]
  · have hlt : 8 - encoded.length % 8 ≠ 8 := by omega
    have hsame : (8 - encoded.length % 8) % 8 = 8 - encoded.length % 8 := by omega
    simp [padBits, hlt, hsame]

theorem padBits_length_mod (encoded : List Bool) :
    (padBits encoded).length % 8 = 0 := by
  rw [padBits_eq]
  simp only [List.length_append, List.length_replicate]
  omega

theorem padBits_length (encoded : List Bool) :
    (padBits encoded).length = ((encoded.length + 7) / 8) * 8 := by
  rw [padBits_eq]
  simp only [List.length_append, List.length_replicate]
  omega

/-- C5.  Bit-packing contract: the packed payload is exactly
ceiling-to-8 of the total code length in bits; the pad is an explicit
run of zero bits on the end of the code stream; and unpacking the
payload byte-by-byte (most-significant-bit first, as the decoder does)
returns exactly the padded code stream, i.e. packing was MSB-first. -/
theorem bit_packing_contract (content : List Nat) (t : NodePtr)
    (_hne : content ≠ [])
    (_hb : buildHuffmanTree (buildFrequencyTable content) = some t) :
    (packBits (padBits (encodeBits (generateHuffmanCodes t []) content))).length * 8
      = (((content.map fun c =>
            (codeOf (generateHuffmanCodes t []) c).length).sum + 7) / 8) * 8
    ∧ padBits (encodeBits (generateHuffmanCodes t []) content)
        = encodeBits (generateHuffmanCodes t []) content
          ++ List.replicate
              ((8 - (encodeBits (generateHuffmanCodes t []) content).length % 8) % 8)
              false
    ∧ unpackBits (packBits (padBits (encodeBits (generateHuffmanCodes t []) content)))
        = padBits (encodeBits (generateHuffmanCodes t []) content) := by
  refine ⟨?_, padBits_eq _, unpackBits_packBits _ (padBits_length_mod _)⟩
  rw [packBits_length _ (padBits_length_mod _), padBits_length, encodeBits_length]

theorem bit_packing_contract_witness :
    (packBits (padBits (encodeBits (generateHuffmanCodes sampleTree2 []) [1, 2]))).length * 8
      = ((([1, 2].map fun c =>
            (codeOf (generateHuffmanCodes sampleTree2 []) c).length).sum + 7) / 8) * 8
    ∧ padBits (encodeBits (generateHuffmanCodes sampleTree2 []) [1, 2])
        = encodeBits (generateHuffmanCodes sampleTree2 []) [1, 2]
          ++ List.replicate
              ((8 - (encodeBits (generateHuffmanCodes sampleTree2 []) [1, 2]).length % 8) % 8)
              false
    ∧ unpackBits (packBits (padBits (encodeBits (generateHuffmanCodes sampleTree2 []) [1, 2])))
        = padBits (encodeBits (generateHuffmanCodes sampleTree2 []) [1, 2]) :=
  bit_packing_contract [1, 2] sampleTree2 (by decide) (by decide)

/-- If a run of the decode loop consumes its bit list exactly while
emitting symbols (ending with an empty remainder) and the invariant ties
the emitted count to the declared total, then running on the same bits
followed by any extra bits gives the same output and leaves the extra
bits unread: the counter-based break fires before the extra bits. -/
theorem decode_extend (root : NodePtr) :
    ∀ (bits : List Bool) (cur : NodePtr) (total count : Nat) (acc out : List Nat),
      decodeLoop root cur bits total count acc = some (out, []) →
      out.length + count = total + acc.length →
      count < total →
      ∀ extra, decodeLoop root cur (bits ++ extra) total count acc = some (out, extra) := by
  intro bits
  induction bits with
  | nil =>
    intro cur total count acc out hrun hinv hlt extra
    cases cur with
    | null =>
      simp only [decodeLoop, Option.some.injEq, Prod.mk.injEq] at hrun
      obtain ⟨h1, -⟩ := hrun
      rw [← h1] at hinv
      simp at hinv
      omega
    | node d f l r =>
      simp only [decodeLoop, Option.some.injEq, Prod.mk.injEq] at hrun
      obtain ⟨h1, -⟩ := hrun
      rw [← h1] at hinv
      simp at hinv
      omega
  | cons bit rest ih =>
    intro cur total count acc out hrun hinv hlt extra
    cases cur with
    | null => simp [decodeLoop] at hrun
    | node d f l r =>
      simp only [List.cons_append, decodeLoop] at hrun ⊢
      cases hnx : (if bit then r else l) with
      | null =>
        rw [hnx] at hrun
        simp at hrun
      | node dn fn nl nr =>
        simp only [hnx] at hrun ⊢
        by_cases hleaf : nl = NodePtr.null ∧ nr = NodePtr.null
        · rw [if_pos hleaf] at hrun ⊢
          by_cases hc : count + 1 = total
          · rw [if_pos hc] at hrun ⊢
            simp only [Option.some.injEq, Prod.mk.injEq] at hrun
            obtain ⟨hout, hrest⟩ := hrun
            subst hrest
            subst hout
            simp
          · rw [if_neg hc] at hrun ⊢
            refine ih root total (count + 1) (dn :: acc) out hrun ?_ (by omega) extra
            simp only [List.length_cons] at hinv ⊢
            omega
        · rw [if_neg hleaf] at hrun ⊢
          exact ih _ total count acc out hrun hinv hlt extra

/-- C6.  Decoder stop condition: on an artifact whose payload is a
meaningful bit region that decodes to exactly the header's frequency sum
followed by trailing padding bits, `decompressFile` emits exactly that
many symbols and the padding bits are never consumed (the output is the
output of the meaningful region alone). -/
theorem decoder_stop_condition (a : Artifact) (root : NodePtr)
    (bits extra : List Bool) (out : List Nat) (total : Nat)
    (htot : total = sumFreqs (parseTable a.table))
    (hroot : buildHuffmanTree (parseTable a.table) = some root)
    (hsplit : unpackBits a.payload = bits ++ extra)
    (hdec : decodeLoop root root bits total 0 [] = some (out, []))
    (hlen : out.length = total)
    (hpos : 0 < total) :
    decompressFile a = some out
    ∧ out.length = sumFreqs (parseTable a.table) := by
  subst htot
  have hext := decode_extend root bits root _ 0 [] out hdec (by simpa using hlen) hpos extra
  refine ⟨?_, hlen⟩
  simp only [decompressFile, hroot, hsplit, hext]

theorem decoder_stop_condition_witness :
    decompressFile ⟨[(65, 2), (66, 1)], [192]⟩ = some [65, 65, 66]
    ∧ ([65, 65, 66] : List Nat).length
        = sumFreqs (parseTable [(65, 2), (66, 1)]) :=
  decoder_stop_condition ⟨[(65, 2), (66, 1)], [192]⟩
    (NodePtr.node 0 3 (NodePtr.node 66 1 NodePtr.null NodePtr.null)
      (NodePtr.node 65 2 NodePtr.null NodePtr.null))
    [true, true, false] [false, false, false, false, false] [65, 65, 66] 3
    (by decide) (by decide) (by decide) (by decide) (by decide) (by decide)

/-- C1.  The round-trip law fails on the two-byte buffer
`[0x00, 0x01]`: the `'\0'` sentinel test in `generateHuffmanCodes`
swallows the code of the genuine symbol `0x00`, the encoder emits a
single meaningful bit for the whole buffer, and the decoder then reads a
padding bit as data, returning `[0x01, 0x00]` instead of the input. -/
theorem sentinel_breaks_roundtrip :
    (compressFile [0, 1]).bind decompressFile = some [1, 0]
    ∧ some [1, 0] ≠ some [0, 1] := by
  constructor
  · decide
  · decide

/-- C2.  The single-symbol special case is absent from the code: for the
one-symbol buffer `[65, 65, 65]` the root is a lone leaf, the code
assigned to symbol 65 is the empty bit string (not a one-bit code), the
packed payload is empty, and decoding the artifact emits nothing instead
of the three original bytes. -/
theorem single_symbol_empty_code :
    buildHuffmanTree [(65, 3)] = some (NodePtr.node 65 3 NodePtr.null NodePtr.null)
    ∧ generateHuffmanCodes (NodePtr.node 65 3 NodePtr.null NodePtr.null) [] = [(65, [])]
    ∧ (compressFile [65, 65, 65]).bind decompressFile = some []
    ∧ some ([] : List Nat) ≠ some [65, 65, 65] := by
  refine ⟨by decide, by decide, by decide, by decide⟩

/-- C8.  No corrupt-stream error exists in the decoder: on an artifact
whose header declares 12 symbols but whose payload holds only 8 usable
bits, the loop simply runs off the end of the stream and the function
returns the truncated 8-symbol output as a successful result. -/
theorem truncated_stream_silent_success :
    decompressFile ⟨[(65, 8), (66, 4)], [192]⟩
      = some [65, 65, 66, 66, 66, 66, 66, 66]
    ∧ sumFreqs (parseTable [(65, 8), (66, 4)]) = 12 := by
  refine ⟨by decide, by decide⟩

end HuffZip
